import Mathlib

/-!
Verification of the prop-resolution and page-object-construction engine of
node-inertiajs (`inertia.ts`), together with the redirect logic and the JSON
dispatch of the default HTTP adapter (`http_adapter.ts`).

JavaScript objects holding props are modelled as association lists
`List (String × PropValue)` whose keys are unique (JS object keys are), in
insertion order (JS objects preserve insertion order, which is what
`Object.entries` / spread syntax iterate in).  Callbacks are modelled by the
value they produce: the engine never inspects a callback, it only invokes it
and awaits its result, so a pure value is a faithful shallow embedding of the
suspended computation.
-/

namespace NodeInertia

/-- Modelled from the spec: the prop variant classes live in `props.js`, which is
not part of the sources at hand (only its importers are).  Per spec §3/§4.1 there
are five variants, each wrapping one callback: Eager (a plain value or a plain
function), Optional, Deferred (with a string group, and carrying the
ignore-first-load marker like Optional), Merge (carrying a merge flag), and
Always.  `undefV` is the JavaScript `undefined` value, which arises when an
`only` header names a key that is not among the candidate props.  `funcV r`
is a plain function whose invocation returns `r`; every other callback is
modelled by the `Nat` result it produces. -/
inductive PropValue where
  | undefV : PropValue
  | plain : Nat → PropValue
  | funcV : PropValue → PropValue
  | optionalP : Nat → PropValue
  | mergeP : Nat → Bool → PropValue
  | deferP : Nat → String → PropValue
  | alwaysP : Nat → PropValue
deriving DecidableEq, Repr

/-- A JavaScript object of props: association list in insertion order. -/
abbrev Obj := List (String × PropValue)

/-- Request headers read by the engine.  Modelled from the spec: the header
name constants live in `headers.js`, not among the sources at hand; per spec §6
the engine reads a protocol marker header, a partial-component header, an
`only` header, an `except` header and a `reset` header.  `none` models an
absent header. -/
structure ReqHeaders where
  inertiaHdr : Option String
  componentHdr : Option String
  onlyHdr : Option String
  exceptHdr : Option String
  resetHdr : Option String
deriving DecidableEq, Repr

/-- JavaScript truthiness of a header value: `undefined` and `""` are falsy. -/
def truthy : Option String → Bool
  | none => false
  | some s => decide (s ≠ "")

/-- Property read `o[k]` on a JS object, as an `Option`. -/
def lookupV : Obj → String → Option PropValue
  | [], _ => none
  | p :: rest, k => if p.1 = k then some p.2 else lookupV rest k

/-- Property read `o[k]` on a JS object: `undefined` when the key is absent. -/
def jsGet (o : Obj) (k : String) : PropValue :=
  (lookupV o k).getD .undefV

/-- Key-membership test `k in o`. -/
def hasKey : Obj → String → Bool
  | [], _ => false
  | p :: rest, k => if p.1 = k then true else hasKey rest k

/-- Property write `o[k] = v` on a JS object: replaces in place if the key
exists (keeping its position), otherwise appends. -/
def objSet : Obj → String → PropValue → Obj
  | [], k, v => [(k, v)]
  | p :: rest, k, v => if p.1 = k then (k, v) :: rest else p :: objSet rest k v

/-- Character-level worker for comma splitting. -/
def splitCommaAux (cur : List Char) : List Char → List String
  | [] => [String.mk cur.reverse]
  | c :: rest =>
      if c = ',' then String.mk cur.reverse :: splitCommaAux [] rest
      else splitCommaAux (c :: cur) rest

/-- JavaScript `s.split(",")`: the maximal comma-free segments of `s`, empty
segments included (`"".split(",")` is `[""]`). -/
def splitComma (s : String) : List String :=
  splitCommaAux [] s.toList

/-- Header splitting `header.split(",").filter(Boolean)` from the source. -/
def splitHeader (s : String) : List String :=
  (splitComma s).filter (fun t => decide (t ≠ ""))

/-- Marker test `value && value[ignoreFirstLoadSymbol]` from
`#pickPropsToResolve`.  Modelled from the spec: the marker is carried by the
Optional and Deferred variants (spec §3: both are excluded from the first,
non-partial response). -/
def ignoreFirstLoad : PropValue → Bool
  | .optionalP _ => true
  | .deferP _ _ => true
  | _ => false

/-- Test `value instanceof AlwaysProp`. -/
def isAlwaysProp : PropValue → Bool
  | .alwaysP _ => true
  | _ => false

/-- Test `value instanceof MergeableProp && value.shouldMerge`.  Modelled from
the spec: the Merge variant carries a merge flag (spec §4.1). -/
def isMergeableSet : PropValue → Bool
  | .mergeP _ b => b
  | _ => false

/-- Group of a Deferred variant (`DeferProp.getGroup`), `none` otherwise. -/
def deferGroup : PropValue → Option String
  | .deferP _ g => some g
  | _ => none

/-- The check `#isPartial(component)`: the partial-component header must be
present and strictly equal to the component being rendered. -/
def isPartialReq (hdrs : ReqHeaders) (component : String) : Bool :=
  decide (hdrs.componentHdr = some component)

/-- The method `#resolveOnly(props)`: build a fresh object containing, for each
key of the `only` header in order, the candidate value of that key
(`undefined` when the key is not among the candidates). -/
def resolveOnly (onlyHdrVal : String) (props : Obj) : Obj :=
  (splitHeader onlyHdrVal).foldl (fun acc key => objSet acc key (jsGet props key)) []

/-- The method `#resolveExcept(props)`: delete every key named in the `except`
header. -/
def resolveExcept (exceptHdrVal : String) (props : Obj) : Obj :=
  props.filter (fun p => decide (p.1 ∉ splitHeader exceptHdrVal))

/-- The final loop of `#pickPropsToResolve`: re-add every `AlwaysProp` entry of
the original candidate set `src` via `newProps[key] = props[key]`. -/
def addAlwaysFrom (src : Obj) : Obj → Obj → Obj
  | [], acc => acc
  | p :: rest, acc =>
      addAlwaysFrom src rest
        (if isAlwaysProp p.2 then objSet acc p.1 (jsGet src p.1) else acc)

/-- The method `#pickPropsToResolve(component, props)`:
if the request is not a partial request for `component`, drop every entry
carrying the ignore-first-load marker; if it is partial and a truthy `only`
header is present, keep exactly the keys of the `only` list (read off the
original candidates); if it is partial and a truthy `except` header is present,
delete the listed keys; finally force-add every `AlwaysProp` entry of the
original candidate set. -/
def pickPropsToResolve (hdrs : ReqHeaders) (component : String) (props : Obj) : Obj :=
  let isP := isPartialReq hdrs component
  let newProps0 := if !isP then props.filter (fun p => !(ignoreFirstLoad p.2)) else props
  let newProps1 :=
    if isP && truthy hdrs.onlyHdr then resolveOnly (hdrs.onlyHdr.getD "") props else newProps0
  let newProps2 :=
    if isP && truthy hdrs.exceptHdr then resolveExcept (hdrs.exceptHdr.getD "") newProps1
    else newProps1
  addAlwaysFrom props props newProps2

/-- The method `#resolveProp(key, value)`: if the value is one of the variant
wrappers, invoke its callback and use the result; otherwise keep the value. -/
def resolveProp : PropValue → PropValue
  | .optionalP c => .plain c
  | .mergeP c _ => .plain c
  | .deferP c _ => .plain c
  | .alwaysP c => .plain c
  | v => v

/-- Resolution of one entry in `#resolvePageProps`: a plain function is invoked
first and its result fed to `#resolveProp`; any other value goes to
`#resolveProp` directly. -/
def resolveEntry : PropValue → PropValue
  | .funcV r => resolveProp r
  | v => resolveProp v

/-- The method `#resolvePageProps(props)`: resolve every entry, keeping keys
and their order (`Promise.all` preserves order). -/
def resolvePageProps (props : Obj) : Obj :=
  props.map (fun p => (p.1, resolveEntry p.2))

/-- One step of the `reduce` in `#resolveDeferredProps`: push `key` onto the
list of its group, creating the group at the end on first sight. -/
def addToGroups (gs : List (String × List String)) (g : String) (k : String) :
    List (String × List String) :=
  if gs.any (fun q => decide (q.1 = g)) then
    gs.map (fun q => if q.1 = g then (q.1, q.2 ++ [k]) else q)
  else gs ++ [(g, [k])]

/-- The `reduce` of `#resolveDeferredProps` over the (key, group) pairs. -/
def groupReduce : List (String × String) → List (String × List String) →
    List (String × List String)
  | [], acc => acc
  | (k, g) :: rest, acc => groupReduce rest (addToGroups acc g k)

/-- The filter-and-map step of `#resolveDeferredProps`: the (key, group) pairs
of the Deferred entries, in declaration order. -/
def deferEntries (props : Obj) : List (String × String) :=
  props.filterMap (fun p => (deferGroup p.2).map (fun g => (p.1, g)))

/-- The method `#resolveDeferredProps(component, pageProps)`: empty on a
partial request; otherwise group the keys of the Deferred entries of the
per-call props by their group, and omit the field when no group exists. -/
def resolveDeferredProps (hdrs : ReqHeaders) (component : String) (pageProps : Obj) :
    Option (List (String × List String)) :=
  if isPartialReq hdrs component then none
  else
    let deferredProps := groupReduce (deferEntries pageProps) []
    if deferredProps.isEmpty then none else some deferredProps

/-- The method `#resolveMergeProps(pageProps)`: keys of the mergeable entries
whose merge flag is set, minus the keys of the `reset` header; the field is
omitted when the list is empty. -/
def resolveMergeProps (hdrs : ReqHeaders) (pageProps : Obj) : Option (List String) :=
  let resetProps := splitHeader ((hdrs.resetHdr).getD "")
  let mergeProps :=
    ((pageProps.filter (fun p => isMergeableSet p.2)).map Prod.fst).filter
      (fun k => decide (k ∉ resetProps))
  if mergeProps.isEmpty then none else some mergeProps

/-- The page object assembled by `#buildPageObject` (wire-relevant fields). -/
structure PageObject where
  component : String
  url : String
  version : String
  props : Obj
  clearHistory : Bool
  encryptHistory : Bool
  mergeProps : Option (List String)
  deferredProps : Option (List (String × List String))
deriving DecidableEq, Repr

/-- JavaScript object spread `{...a, ...b}`: keys of `a` first in their order
(with the value from `b` when `b` also has the key), then the keys of `b` not
in `a`, in their order. -/
def spreadTwo (a b : Obj) : Obj :=
  a.map (fun p => (p.1, (lookupV b p.1).getD p.2)) ++ b.filter (fun q => !(hasKey a q.1))

/-- The method `#buildPageObject(component, pageProps)`: merge the shared data
with the per-call props (per-call wins on collision), filter with
`#pickPropsToResolve`, resolve with `#resolvePageProps`, and attach the
merge-props and deferred-props listings computed from the per-call props. -/
def buildPageObject (hdrs : ReqHeaders) (sharedData : Obj) (component url version : String)
    (clearHistory encryptHistory : Bool) (pageProps : Obj) : PageObject :=
  let propsToResolve := pickPropsToResolve hdrs component (spreadTwo sharedData pageProps)
  { component := component
    url := url
    version := version
    props := resolvePageProps propsToResolve
    clearHistory := clearHistory
    encryptHistory := encryptHistory
    mergeProps := resolveMergeProps hdrs pageProps
    deferredProps := resolveDeferredProps hdrs component pageProps }

/-- The `statusOrUrl` first argument of `Inertia.redirect`: a number or a
string. -/
inductive StatusOrUrl where
  | status : Nat → StatusOrUrl
  | url : String → StatusOrUrl
deriving DecidableEq, Repr

/-- The location `Inertia.redirect` resolves from its arguments: the bare URL
when the first argument is a string, otherwise the second argument
(`url ?? ""`). -/
def redirectLocation : StatusOrUrl → Option String → String
  | .status _, u2 => u2.getD ""
  | .url u, _ => u

/-- The method `Inertia.redirect(statusOrUrl, url)`: status defaults to 302
for a bare URL; throws when no URL is resolvable; upgrades a 302 status to 303
for PUT/PATCH/DELETE requests (`adapter.getMethod() || "HEAD"`); on success the
adapter is told the final status and location. -/
def redirect (method : String) (statusOrUrl : StatusOrUrl) (url2 : Option String) :
    Except String (Nat × String) :=
  let status := match statusOrUrl with
    | .status n => n
    | .url _ => 302
  let location := redirectLocation statusOrUrl url2
  if location = "" then Except.error "Redirect URL is required"
  else
    let m := if method = "" then "HEAD" else method
    let status' :=
      if status = 302 && decide (m ∈ ["PUT", "PATCH", "DELETE"]) then 303 else status
    Except.ok (status', location)

/-- A JSON response as written by an adapter's `json` method. -/
structure JsonResponse where
  status : Nat
  contentType : String
  body : String
deriving DecidableEq, Repr

/-- The method `HttpAdapter.json(data)` of the default adapter
(`http_adapter.ts`, the class implementing the `Adapter` interface that
`Inertia` consumes): sets the content type and writes `JSON.stringify(data)`.
Serialization is modelled as an `Except` (a circular structure is not
representable in the shallow value model, so the stringify outcome is an
input).  There is no try/catch: a serialization error propagates. -/
def httpAdapterJson (statusBefore : Nat) (ser : Except String String) :
    Except String JsonResponse :=
  match ser with
  | .ok body => .ok ⟨statusBefore, "application/json", body⟩
  | .error e => .error e

/-- The `json` method of the property-style adapter variant also shipped in the
sources: it wraps the stringify in try/catch and degrades to a 500 with a
minimal JSON error body. -/
def httpAdapterJsonAlt (statusBefore : Nat) (ser : Except String String) : JsonResponse :=
  match ser with
  | .ok body => ⟨statusBefore, "application/json", body⟩
  | .error _ => ⟨500, "application/json", "\x7b\"error\":\"Failed to serialize JSON\"\x7d"⟩

/-- The protocol branch of `Inertia.render` with the default adapter: when the
protocol header is present, the page object is serialized and dispatched via
`adapter.json(pageObject)`; `render` itself wraps nothing in try/catch. -/
def renderProtocolResponse (po : PageObject) (serialize : PageObject → Except String String) :
    Except String JsonResponse :=
  httpAdapterJson 200 (serialize po)

/-- First-match choice between two option values. -/
def orE (a b : Option PropValue) : Option PropValue :=
  match a with
  | some v => some v
  | none => b

/-- The keys of a props object with a value that is not `undefined` — exactly
the keys that survive JSON encoding of the object (`JSON.stringify` omits
`undefined`-valued properties). -/
def visibleKeys (o : Obj) : List String :=
  (o.filter (fun p => decide (p.2 ≠ .undefV))).map Prod.fst

/-- Classifier for the presence side of claim C1: the variants the claim names
as included on first load — Always, Eager (a plain value or a plain function)
and Merge. -/
def keptOnFirstLoad : PropValue → Bool
  | .plain _ => true
  | .funcV _ => true
  | .mergeP _ _ => true
  | .alwaysP _ => true
  | _ => false

/-- The distinct elements of a list in order of first occurrence. -/
def firstSeen : List String → List String
  | [] => []
  | g :: rest => g :: (firstSeen rest).filter (fun x => decide (x ≠ g))

/-- The keys of the pairs carrying group `g`, in order. -/
def keysForGroup (ps : List (String × String)) (g : String) : List String :=
  (ps.filter (fun r => decide (r.2 = g))).map Prod.fst

/-- Following the spec's words (§4.4 step 4): the deferred listing maps each
group name, in order of first Deferred occurrence, to the keys of the Deferred
entries declared with that group, in their declaration order; it is absent
when no Deferred entry exists. -/
def specDeferredProps (props : Obj) : Option (List (String × List String)) :=
  let listing :=
    (firstSeen ((deferEntries props).map Prod.snd)).map
      (fun g => (g, keysForGroup (deferEntries props) g))
  if listing.isEmpty then none else some listing

/-! ### Basic lemmas about the JS object model -/

/-- First-match semantics: a successful lookup is a member of the list. -/
theorem lookupV_mem : ∀ {l : Obj} {k : String} {v : PropValue},
    lookupV l k = some v → (k, v) ∈ l := by
  intro l
  induction l with
  | nil => intro k v h; simp [lookupV] at h
  | cons p rest ih =>
    intro k v h
    rw [lookupV] at h
    by_cases hk : p.1 = k
    · rw [if_pos hk] at h
      cases p
      simp_all
    · rw [if_neg hk] at h
      exact List.mem_cons_of_mem _ (ih h)

/-- A lookup fails exactly when the key is absent. -/
theorem lookupV_eq_none {l : Obj} {k : String} :
    lookupV l k = none ↔ k ∉ l.map Prod.fst := by
  induction l with
  | nil => simp [lookupV]
  | cons p rest ih =>
    rw [lookupV]
    by_cases hk : p.1 = k
    · simp [hk]
    · simp [hk, ih, Ne.symm hk]

/-- With unique keys, membership determines the lookup. -/
theorem lookupV_of_mem {l : Obj} {k : String} {v : PropValue}
    (hnd : (l.map Prod.fst).Nodup) (hm : (k, v) ∈ l) : lookupV l k = some v := by
  induction l with
  | nil => simp at hm
  | cons p rest ih =>
    simp only [List.map_cons, List.nodup_cons] at hnd
    rcases List.mem_cons.mp hm with h | h
    · rw [← h, lookupV, if_pos rfl]
    · have hk : p.1 ≠ k := by
        intro hh
        exact hnd.1 (hh ▸ List.mem_map.mpr ⟨(k, v), h, rfl⟩)
      rw [lookupV, if_neg hk]
      exact ih hnd.2 h

theorem lookupV_append_some {l₁ l₂ : Obj} {k : String} {v : PropValue}
    (h : lookupV l₁ k = some v) : lookupV (l₁ ++ l₂) k = some v := by
  induction l₁ with
  | nil => simp [lookupV] at h
  | cons p rest ih =>
    rw [lookupV] at h
    by_cases hk : p.1 = k
    · rw [if_pos hk] at h
      rw [List.cons_append, lookupV, if_pos hk]
      exact h
    · rw [if_neg hk] at h
      rw [List.cons_append, lookupV, if_neg hk]
      exact ih h

theorem lookupV_append_none {l₁ l₂ : Obj} {k : String}
    (h : lookupV l₁ k = none) : lookupV (l₁ ++ l₂) k = lookupV l₂ k := by
  induction l₁ with
  | nil => simp
  | cons p rest ih =>
    rw [lookupV] at h
    by_cases hk : p.1 = k
    · rw [if_pos hk] at h
      exact absurd h (by simp)
    · rw [if_neg hk] at h
      rw [List.cons_append, lookupV, if_neg hk]
      exact ih h

/-- Lookup through a key-preserving value map. -/
theorem lookupV_map {l : Obj} {k : String} (g : String → PropValue → PropValue) :
    lookupV (l.map (fun p => (p.1, g p.1 p.2))) k = (lookupV l k).map (g k) := by
  induction l with
  | nil => rfl
  | cons p rest ih =>
    by_cases hk : p.1 = k
    · subst hk
      simp [lookupV]
    · simp [lookupV, hk, ih]

/-- A key-preserving value map keeps the key list. -/
theorem keys_map (l : Obj) (g : String → PropValue → PropValue) :
    (l.map (fun p => (p.1, g p.1 p.2))).map Prod.fst = l.map Prod.fst := by
  induction l with
  | nil => rfl
  | cons p rest ih => simp [ih]

theorem keys_filter_subset {l : Obj} (f : (String × PropValue) → Bool) :
    ((l.filter f).map Prod.fst) ⊆ l.map Prod.fst := by
  intro k hk
  rcases List.mem_map.mp hk with ⟨q, hq, rfl⟩
  exact List.mem_map.mpr ⟨q, (List.mem_filter.mp hq).1, rfl⟩

/-- Lookup through a filter whose predicate only reads the key. -/
theorem lookupV_filter_key {l : Obj} {k : String} (g : String → Bool) :
    lookupV (l.filter (fun p => g p.1)) k = if g k then lookupV l k else none := by
  induction l with
  | nil => simp [lookupV]
  | cons p rest ih =>
    by_cases hk : p.1 = k
    · subst hk
      by_cases hg : g p.1 <;> simp [List.filter_cons, hg, lookupV, ih]
    · by_cases hg : g p.1 <;> simp [List.filter_cons, hg, lookupV, hk, ih]

/-- Lookup through a filter whose predicate only reads the value, given unique
keys. -/
theorem lookupV_filter_val {l : Obj} {k : String} (f : PropValue → Bool)
    (hnd : (l.map Prod.fst).Nodup) :
    lookupV (l.filter (fun p => f p.2)) k =
      (lookupV l k).bind (fun v => if f v then some v else none) := by
  induction l with
  | nil => simp [lookupV]
  | cons p rest ih =>
    simp only [List.map_cons, List.nodup_cons] at hnd
    by_cases hk : p.1 = k
    · subst hk
      by_cases hf : f p.2
      · simp [List.filter_cons, hf, lookupV]
      · have hnone : lookupV (rest.filter fun q => f q.2) p.1 = none := by
          rw [lookupV_eq_none]
          intro hmem
          exact hnd.1 (keys_filter_subset _ hmem)
        simp [List.filter_cons, hf, lookupV, hnone]
    · by_cases hf : f p.2 <;> simp [List.filter_cons, hf, lookupV, hk, ih hnd.2]

theorem lookupV_objSet_self {l : Obj} {k : String} {v : PropValue} :
    lookupV (objSet l k v) k = some v := by
  induction l with
  | nil => simp [objSet, lookupV]
  | cons p rest ih =>
    by_cases hk : p.1 = k
    · simp [objSet, hk, lookupV]
    · simp [objSet, hk, lookupV, ih]

theorem lookupV_objSet_ne {l : Obj} {k k' : String} {v : PropValue} (h : k' ≠ k) :
    lookupV (objSet l k v) k' = lookupV l k' := by
  induction l with
  | nil => simp [objSet, lookupV, Ne.symm h]
  | cons p rest ih =>
    by_cases hk : p.1 = k
    · subst hk
      simp [objSet, lookupV, Ne.symm h]
    · simp [objSet, hk, lookupV, ih]

theorem keys_objSet {l : Obj} {k : String} {v : PropValue} :
    (objSet l k v).map Prod.fst =
      if k ∈ l.map Prod.fst then l.map Prod.fst else l.map Prod.fst ++ [k] := by
  induction l with
  | nil => simp [objSet]
  | cons p rest ih =>
    by_cases hk : p.1 = k
    · simp [objSet, hk]
    · by_cases hm : k ∈ rest.map Prod.fst <;>
        simp [objSet, hk, ih, hm, Ne.symm hk]

theorem keys_objSet_nodup {l : Obj} {k : String} {v : PropValue}
    (h : (l.map Prod.fst).Nodup) : ((objSet l k v).map Prod.fst).Nodup := by
  rw [keys_objSet]
  by_cases hm : k ∈ l.map Prod.fst
  · simpa [hm] using h
  · rw [if_neg hm]
    refine List.Nodup.append h (List.nodup_singleton k) ?_
    intro a ha hb
    rw [List.mem_singleton] at hb
    exact hm (hb ▸ ha)

theorem hasKey_eq_isSome {l : Obj} {k : String} :
    hasKey l k = (lookupV l k).isSome := by
  induction l with
  | nil => simp [hasKey, lookupV]
  | cons p rest ih =>
    by_cases hk : p.1 = k <;> simp [hasKey, lookupV, hk, ih]

theorem hasKey_iff_mem {l : Obj} {k : String} :
    hasKey l k = true ↔ k ∈ l.map Prod.fst := by
  rw [hasKey_eq_isSome, Option.isSome_iff_ne_none, ne_eq, lookupV_eq_none, not_not]

@[simp] theorem orE_some {v : PropValue} {b : Option PropValue} :
    orE (some v) b = some v := rfl

@[simp] theorem orE_none {b : Option PropValue} : orE none b = b := rfl

/-! ### Lemmas about the prop-selection pipeline -/

theorem lookupV_foldl_objSet (props : Obj) :
    ∀ (keysL : List String) (acc : Obj) (k : String),
      lookupV (keysL.foldl (fun acc key => objSet acc key (jsGet props key)) acc) k =
        if k ∈ keysL then some (jsGet props k) else lookupV acc k := by
  intro keysL
  induction keysL with
  | nil => intro acc k; simp
  | cons key rest ih =>
    intro acc k
    rw [List.foldl_cons, ih]
    by_cases hk : k ∈ rest
    · simp [hk]
    · by_cases hkey : k = key
      · subst hkey
        simp [hk, lookupV_objSet_self]
      · simp [hk, hkey, lookupV_objSet_ne hkey]

/-- Lookup in the object built by `#resolveOnly`. -/
theorem lookupV_resolveOnly {s : String} {props : Obj} {k : String} :
    lookupV (resolveOnly s props) k =
      if k ∈ splitHeader s then some (jsGet props k) else none := by
  rw [resolveOnly, lookupV_foldl_objSet]
  rfl

theorem nodup_foldl_objSet (props : Obj) :
    ∀ (keysL : List String) (acc : Obj), (acc.map Prod.fst).Nodup →
      ((keysL.foldl (fun acc key => objSet acc key (jsGet props key)) acc).map Prod.fst).Nodup := by
  intro keysL
  induction keysL with
  | nil => intro acc h; simpa using h
  | cons key rest ih =>
    intro acc h
    rw [List.foldl_cons]
    exact ih _ (keys_objSet_nodup h)

theorem nodup_resolveOnly {s : String} {props : Obj} :
    ((resolveOnly s props).map Prod.fst).Nodup := by
  rw [resolveOnly]
  exact nodup_foldl_objSet props _ [] (by simp)

/-- Lookup through the `AlwaysProp` re-adding loop of `#pickPropsToResolve`:
an `AlwaysProp` entry of the iterated list wins, anything else falls through
to the accumulator. -/
theorem lookupV_addAlwaysFrom {src : Obj} :
    ∀ (l acc : Obj), (l.map Prod.fst).Nodup →
      (∀ p ∈ l, lookupV src p.1 = some p.2) → ∀ k,
      lookupV (addAlwaysFrom src l acc) k =
        orE (lookupV (l.filter (fun p => isAlwaysProp p.2)) k) (lookupV acc k) := by
  intro l
  induction l with
  | nil => intro acc _ _ k; simp [addAlwaysFrom, lookupV]
  | cons p rest ih =>
    intro acc hnd hsrc k
    simp only [List.map_cons, List.nodup_cons] at hnd
    have hp : jsGet src p.1 = p.2 := by
      rw [jsGet, hsrc p (List.mem_cons_self _ _)]
      rfl
    rw [addAlwaysFrom]
    rw [ih _ hnd.2 (fun q hq => hsrc q (List.mem_cons_of_mem _ hq))]
    by_cases ha : isAlwaysProp p.2
    · rw [if_pos ha, hp]
      by_cases hk : p.1 = k
      · subst hk
        have hrest : lookupV (rest.filter fun q => isAlwaysProp q.2) p.1 = none := by
          rw [lookupV_eq_none]
          intro hmem
          exact hnd.1 (keys_filter_subset _ hmem)
        simp [List.filter_cons, ha, lookupV, hrest, lookupV_objSet_self]
      · simp [List.filter_cons, ha, lookupV, hk, lookupV_objSet_ne (Ne.symm hk)]
    · rw [if_neg ha]
      simp [List.filter_cons, ha]

theorem nodup_addAlwaysFrom {src : Obj} :
    ∀ (l acc : Obj), (acc.map Prod.fst).Nodup →
      ((addAlwaysFrom src l acc).map Prod.fst).Nodup := by
  intro l
  induction l with
  | nil => intro acc h; simpa [addAlwaysFrom] using h
  | cons p rest ih =>
    intro acc h
    rw [addAlwaysFrom]
    by_cases ha : isAlwaysProp p.2
    · rw [if_pos ha]
      exact ih _ (keys_objSet_nodup h)
    · rw [if_neg ha]
      exact ih _ h

/-- An `AlwaysProp` value never carries the ignore-first-load marker. -/
theorem not_ignore_of_always {v : PropValue} (h : isAlwaysProp v = true) :
    ignoreFirstLoad v = false := by
  cases v <;> simp_all [isAlwaysProp, ignoreFirstLoad]

/-- On a request that is not a partial request for the rendered component,
`#pickPropsToResolve` keeps exactly the entries without the ignore-first-load
marker, at their candidate values. -/
theorem lookupV_pick_nonPartial {hdrs : ReqHeaders} {comp : String} {props : Obj}
    (hnd : (props.map Prod.fst).Nodup) (hP : isPartialReq hdrs comp = false)
    (k : String) :
    lookupV (pickPropsToResolve hdrs comp props) k =
      (lookupV props k).bind (fun v => if ignoreFirstLoad v then none else some v) := by
  rw [pickPropsToResolve]
  simp only [hP, Bool.false_and, Bool.not_false, if_true, Bool.false_eq_true, if_false]
  rw [lookupV_addAlwaysFrom props _ hnd (fun q hq => lookupV_of_mem hnd hq) k]
  rw [lookupV_filter_val isAlwaysProp hnd, lookupV_filter_val (fun v => !(ignoreFirstLoad v)) hnd]
  cases hv : lookupV props k with
  | none => simp
  | some v => cases v <;> simp [isAlwaysProp, ignoreFirstLoad, orE]

/-- On a partial request for the rendered component with neither a truthy
`only` nor a truthy `except` header, `#pickPropsToResolve` keeps every entry. -/
theorem lookupV_pick_noFilters {hdrs : ReqHeaders} {comp : String} {props : Obj}
    (hnd : (props.map Prod.fst).Nodup) (hP : isPartialReq hdrs comp = true)
    (hOnly : truthy hdrs.onlyHdr = false) (hExcept : truthy hdrs.exceptHdr = false)
    (k : String) :
    lookupV (pickPropsToResolve hdrs comp props) k = lookupV props k := by
  rw [pickPropsToResolve]
  simp only [hP, hOnly, hExcept, Bool.true_and, Bool.not_true, Bool.false_eq_true, if_false]
  rw [lookupV_addAlwaysFrom props _ hnd (fun q hq => lookupV_of_mem hnd hq) k]
  rw [lookupV_filter_val _ hnd]
  cases hv : lookupV props k with
  | none => simp
  | some v => cases v <;> simp [isAlwaysProp, orE, hv]

/-- On a partial request for the rendered component with a truthy `only`
header and no truthy `except` header, `#pickPropsToResolve` returns the
`only`-projection of the candidates, with `AlwaysProp` entries force-added. -/
theorem lookupV_pick_only {hdrs : ReqHeaders} {comp : String} {props : Obj}
    {s : String} (hnd : (props.map Prod.fst).Nodup) (hP : isPartialReq hdrs comp = true)
    (hs : hdrs.onlyHdr = some s) (hsne : s ≠ "") (hExcept : truthy hdrs.exceptHdr = false)
    (k : String) :
    lookupV (pickPropsToResolve hdrs comp props) k =
      orE (lookupV (props.filter (fun p => isAlwaysProp p.2)) k)
        (if k ∈ splitHeader s then some (jsGet props k) else none) := by
  have htr : truthy (some s) = true := by
    simp [truthy, hsne]
  rw [pickPropsToResolve]
  simp only [hP, hs, htr, hExcept, Bool.true_and, Bool.not_true, Bool.false_eq_true,
    eq_self_iff_true, if_true, if_false, Option.getD_some]
  rw [lookupV_addAlwaysFrom props _ hnd (fun q hq => lookupV_of_mem hnd hq) k]
  rw [lookupV_resolveOnly]

/-- Lookup through JS spread `{...a, ...b}`: the `b` value wins, else `a`. -/
theorem lookupV_spreadTwo {a b : Obj} {k : String} :
    lookupV (spreadTwo a b) k = orE (lookupV b k) (lookupV a k) := by
  rw [spreadTwo]
  cases ha : lookupV a k with
  | some va =>
    have h1 : lookupV (a.map (fun p => (p.1, (lookupV b p.1).getD p.2))) k
        = some ((lookupV b k).getD va) := by
      rw [lookupV_map (fun kk v => (lookupV b kk).getD v), ha]
      rfl
    rw [lookupV_append_some h1]
    cases hb : lookupV b k <;> simp [orE]
  | none =>
    have h1 : lookupV (a.map (fun p => (p.1, (lookupV b p.1).getD p.2))) k = none := by
      rw [lookupV_map (fun kk v => (lookupV b kk).getD v), ha]
      rfl
    rw [lookupV_append_none h1]
    have hk : hasKey a k = false := by
      rw [hasKey_eq_isSome, ha]
      rfl
    rw [lookupV_filter_key (fun kk => !(hasKey a kk))]
    rw [hk]
    cases lookupV b k <;> simp [orE]

theorem nodup_spreadTwo {a b : Obj} (ha : (a.map Prod.fst).Nodup)
    (hb : (b.map Prod.fst).Nodup) : ((spreadTwo a b).map Prod.fst).Nodup := by
  rw [spreadTwo, List.map_append]
  refine List.Nodup.append ?_ ?_ ?_
  · rw [keys_map a (fun kk v => (lookupV b kk).getD v)]
    exact ha
  · exact hb.sublist (List.Sublist.map Prod.fst (List.filter_sublist b))
  · intro x hx hy
    rw [keys_map a (fun kk v => (lookupV b kk).getD v)] at hx
    rcases List.mem_map.mp hy with ⟨q, hq, rfl⟩
    rcases List.mem_filter.mp hq with ⟨_, hqp⟩
    rw [Bool.not_eq_true'] at hqp
    rw [← hasKey_iff_mem] at hx
    rw [hx] at hqp
    cases hqp

/-- Lookup through `#resolvePageProps`: same keys, resolved values. -/
theorem lookupV_resolvePageProps {props : Obj} {k : String} :
    lookupV (resolvePageProps props) k = (lookupV props k).map resolveEntry := by
  rw [resolvePageProps]
  exact lookupV_map (fun _ v => resolveEntry v)

theorem keys_resolvePageProps {props : Obj} :
    (resolvePageProps props).map Prod.fst = props.map Prod.fst := by
  rw [resolvePageProps]
  exact keys_map props (fun _ v => resolveEntry v)

theorem mem_visibleKeys {o : Obj} (hnd : (o.map Prod.fst).Nodup) {k : String} :
    k ∈ visibleKeys o ↔ ∃ w, lookupV o k = some w ∧ w ≠ .undefV := by
  constructor
  · intro h
    rcases List.mem_map.mp h with ⟨q, hq, rfl⟩
    rcases List.mem_filter.mp hq with ⟨hqo, hqv⟩
    refine ⟨q.2, lookupV_of_mem hnd ?_, by simpa using hqv⟩
    exact hqo
  · rintro ⟨w, hw, hwne⟩
    exact List.mem_map.mpr ⟨(k, w), List.mem_filter.mpr ⟨lookupV_mem hw, by simpa using hwne⟩, rfl⟩

theorem nodup_filter_obj {l : Obj} (f : (String × PropValue) → Bool)
    (h : (l.map Prod.fst).Nodup) : ((l.filter f).map Prod.fst).Nodup :=
  h.sublist (List.Sublist.map Prod.fst (List.filter_sublist l))

/-- The result of `#pickPropsToResolve` has unique keys whenever the
candidates do. -/
theorem nodup_pick {hdrs : ReqHeaders} {comp : String} {props : Obj}
    (hnd : (props.map Prod.fst).Nodup) :
    ((pickPropsToResolve hdrs comp props).map Prod.fst).Nodup := by
  rw [pickPropsToResolve]
  refine nodup_addAlwaysFrom _ _ ?_
  have h0 : (((if !isPartialReq hdrs comp then
      props.filter (fun p => !(ignoreFirstLoad p.2)) else props)).map Prod.fst).Nodup := by
    by_cases h : !isPartialReq hdrs comp
    · rw [if_pos h]
      exact nodup_filter_obj _ hnd
    · rw [if_neg h]
      exact hnd
  have h1 : (((if isPartialReq hdrs comp && truthy hdrs.onlyHdr then
      resolveOnly (hdrs.onlyHdr.getD "") props
      else if !isPartialReq hdrs comp then
        props.filter (fun p => !(ignoreFirstLoad p.2)) else props)).map Prod.fst).Nodup := by
    by_cases h : (isPartialReq hdrs comp && truthy hdrs.onlyHdr) = true
    · rw [if_pos h]
      exact nodup_resolveOnly
    · rw [if_neg h]
      exact h0
  by_cases h : (isPartialReq hdrs comp && truthy hdrs.exceptHdr) = true
  · rw [if_pos h]
    rw [resolveExcept]
    exact nodup_filter_obj _ h1
  · rw [if_neg h]
    exact h1

/-! ### Lemmas about the deferred-props grouping -/

theorem filter_comm {α : Type} (p q : α → Bool) (l : List α) :
    (l.filter p).filter q = (l.filter q).filter p := by
  induction l with
  | nil => rfl
  | cons a rest ih =>
    by_cases hp : p a <;> by_cases hq : q a <;>
      simp [List.filter_cons, hp, hq, ih]

theorem firstSeen_filter (a : String) : ∀ l : List String,
    firstSeen (l.filter (fun x => decide (x ≠ a)))
      = (firstSeen l).filter (fun x => decide (x ≠ a)) := by
  intro l
  induction l with
  | nil => rfl
  | cons g rest ih =>
    by_cases hg : g = a
    · subst hg
      simp [firstSeen, List.filter_cons, List.filter_filter]
      simpa using ih
    · rw [List.filter_cons]
      simp only [decide_eq_true_eq, ne_eq, hg, not_false_eq_true, decide_True, if_true]
      rw [firstSeen, firstSeen, ih, List.filter_cons]
      simp only [ne_eq, hg, not_false_eq_true, decide_True, if_true]
      rw [filter_comm]

theorem firstSeen_subset : ∀ {l : List String} {x : String}, x ∈ firstSeen l → x ∈ l := by
  intro l
  induction l with
  | nil => intro x h; simp [firstSeen] at h
  | cons g rest ih =>
    intro x h
    rw [firstSeen] at h
    rcases List.mem_cons.mp h with rfl | h
    · exact List.mem_cons_self _ _
    · exact List.mem_cons_of_mem _ (ih (List.mem_of_mem_filter h))

theorem any_keys_map (acc : List (String × List String)) (g k x : String) :
    ((acc.map (fun q => if q.1 = g then (q.1, q.2 ++ [k]) else q)).any
        (fun q => decide (q.1 = x)))
      = acc.any (fun q => decide (q.1 = x)) := by
  induction acc with
  | nil => rfl
  | cons q rest ih =>
    by_cases hq : q.1 = g <;> simp [List.any_cons, hq, ih]

theorem map_snd_filter_snd (p : String → Bool) (l : List (String × String)) :
    (l.filter (fun r => p r.2)).map Prod.snd = (l.map Prod.snd).filter p := by
  induction l with
  | nil => rfl
  | cons r rest ih =>
    by_cases hr : p r.2 <;> simp [List.filter_cons, hr, ih]

theorem keysForGroup_cons (k g x : String) (rest : List (String × String)) :
    keysForGroup ((k, g) :: rest) x
      = if g = x then k :: keysForGroup rest x else keysForGroup rest x := by
  by_cases hg : g = x <;> simp [keysForGroup, List.filter_cons, hg]

/-- Characterization of the `reduce` of `#resolveDeferredProps`: every group
already in the accumulator receives the keys of its pairs in order, and the
remaining groups are appended in order of first occurrence, each with the keys
of its pairs in order. -/
theorem groupReduce_eq : ∀ (ps : List (String × String)) (acc : List (String × List String)),
    groupReduce ps acc =
      acc.map (fun q => (q.1, q.2 ++ keysForGroup ps q.1))
      ++ (firstSeen ((ps.filter (fun r =>
            !(acc.any (fun q => decide (q.1 = r.2))))).map Prod.snd)).map
          (fun g => (g, keysForGroup ps g)) := by
  intro ps
  induction ps with
  | nil =>
    intro acc
    simp [groupReduce, keysForGroup, firstSeen]
  | cons r rest ih =>
    obtain ⟨k, g⟩ := r
    intro acc
    rw [groupReduce, ih]
    by_cases hmem : acc.any (fun q => decide (q.1 = g)) = true
    · rw [addToGroups, if_pos hmem]
      have hfc : ((k, g) :: rest).filter
            (fun r => !(acc.any (fun q => decide (q.1 = r.2))))
          = rest.filter (fun r => !(acc.any (fun q => decide (q.1 = r.2)))) := by
        rw [List.filter_cons]
        simp [hmem]
      have hpred : rest.filter (fun r =>
            !((acc.map (fun q => if q.1 = g then (q.1, q.2 ++ [k]) else q)).any
              (fun q => decide (q.1 = r.2))))
          = rest.filter (fun r => !(acc.any (fun q => decide (q.1 = r.2)))) := by
        apply List.filter_congr
        intro r _
        rw [any_keys_map]
      rw [hfc, hpred]
      congr 1
      · rw [List.map_map]
        apply List.map_congr_left
        intro q _
        by_cases hq : q.1 = g
        · simp [Function.comp_apply, hq, keysForGroup_cons, List.append_assoc]
        · have hgq : ¬ (g = q.1) := fun h => hq h.symm
          simp [Function.comp_apply, hq, keysForGroup_cons, hgq]
      · apply List.map_congr_left
        intro x hx
        have hxr := firstSeen_subset hx
        rcases List.mem_map.mp hxr with ⟨r, hr, rfl⟩
        have hrp := (List.mem_filter.mp hr).2
        have hxg : ¬ (g = r.2) := by
          intro hh
          rw [← hh] at hrp
          rw [hmem] at hrp
          cases hrp
        rw [keysForGroup_cons, if_neg hxg]
    · rw [addToGroups, if_neg hmem]
      rw [Bool.not_eq_true] at hmem
      have hfc : ((k, g) :: rest).filter
            (fun r => !(acc.any (fun q => decide (q.1 = r.2))))
          = (k, g) :: rest.filter (fun r => !(acc.any (fun q => decide (q.1 = r.2)))) := by
        rw [List.filter_cons]
        simp [hmem]
      have hpred : rest.filter (fun r =>
            !((acc ++ [(g, [k])]).any (fun q => decide (q.1 = r.2))))
          = (rest.filter (fun r => !(acc.any (fun q => decide (q.1 = r.2))))).filter
              (fun r => decide (r.2 ≠ g)) := by
        rw [List.filter_filter]
        apply List.filter_congr
        intro r _
        simp only [List.any_append, List.any_cons, List.any_nil, Bool.or_false,
          Bool.not_or]
        rw [Bool.and_comm]
        congr 1
        simp [eq_comm]
      rw [hfc, hpred, map_snd_filter_snd (fun x => decide (x ≠ g)), firstSeen_filter g]
      rw [List.map_cons, firstSeen, List.map_cons]
      rw [List.map_append, List.map_cons, List.map_nil]
      rw [List.append_assoc, List.singleton_append]
      have hforall := List.any_eq_false.mp hmem
      congr 1
      · apply List.map_congr_left
        intro q hq
        have hqg : ¬ (g = q.1) := by
          intro hh
          have := hforall q hq
          simp [hh] at this
        rw [keysForGroup_cons, if_neg hqg]
      · congr 1
        · rw [keysForGroup_cons, if_pos rfl]
          rfl
        · apply List.map_congr_left
          intro x hx
          have hxg : ¬ (g = x) := by
            rcases List.mem_filter.mp hx with ⟨_, hx2⟩
            simp only [ne_eq, decide_eq_true_eq] at hx2
            exact fun hh => hx2 hh.symm
          rw [keysForGroup_cons, if_neg hxg]

/-! ### Claim theorems -/

/-- Claim C7: for every call to redirect with a resolvable URL and a default
(non-explicit) status — a bare URL argument — the computed status is 302 when
the request method is GET and is upgraded to 303 when the method is PUT, PATCH
or DELETE; a call in which no URL is resolvable fails with an error before any
status/location pair is handed to the adapter. -/
theorem claim7_redirect_default_status (u m : String) (hu : u ≠ "")
    (hm : m ∈ ["PUT", "PATCH", "DELETE"]) :
    redirect "GET" (StatusOrUrl.url u) none = Except.ok (302, u)
    ∧ redirect m (StatusOrUrl.url u) none = Except.ok (303, u)
    ∧ ∀ (m' : String) (arg : StatusOrUrl) (u2 : Option String),
        redirectLocation arg u2 = "" →
        redirect m' arg u2 = Except.error "Redirect URL is required" := by
  refine ⟨?_, ?_, ?_⟩
  · simp [redirect, redirectLocation, hu]
  · have hm' : m = "PUT" ∨ m = "PATCH" ∨ m = "DELETE" := by simpa using hm
    rcases hm' with rfl | rfl | rfl <;> simp [redirect, redirectLocation, hu]
  · intro m' arg u2 h
    simp [redirect, h]

theorem claim7_redirect_default_status_witness :
    redirect "GET" (StatusOrUrl.url "/next") none = Except.ok (302, "/next")
    ∧ redirect "PUT" (StatusOrUrl.url "/next") none = Except.ok (303, "/next")
    ∧ redirect "DELETE" (StatusOrUrl.status 301) none
        = Except.error "Redirect URL is required" := by
  obtain ⟨h1, h2, h3⟩ := claim7_redirect_default_status "/next" "PUT" (by decide) (by decide)
  exact ⟨h1, h2, h3 "DELETE" (StatusOrUrl.status 301) none rfl⟩

/-- Claim C10: when status 302 is passed explicitly together with a URL and
the request method is PUT, PATCH or DELETE, the status is still upgraded to
303 — the upgrade tests the status value, not whether it was defaulted. -/
theorem claim10_redirect_explicit_302_upgraded (u m : String) (hu : u ≠ "")
    (hm : m ∈ ["PUT", "PATCH", "DELETE"]) :
    redirect m (StatusOrUrl.status 302) (some u) = Except.ok (303, u) := by
  have hm' : m = "PUT" ∨ m = "PATCH" ∨ m = "DELETE" := by simpa using hm
  rcases hm' with rfl | rfl | rfl <;> simp [redirect, redirectLocation, hu]

theorem claim10_redirect_explicit_302_upgraded_witness :
    redirect "PATCH" (StatusOrUrl.status 302) (some "/done") = Except.ok (303, "/done") :=
  claim10_redirect_explicit_302_upgraded "/done" "PATCH" (by decide) (by decide)

/-- Claim C8 counterexample: with the default `HttpAdapter` — the adapter
implementing the interface `Inertia.render` dispatches through — a page object
whose serialization fails does not produce a degraded 500 response; the error
propagates out of the dispatch. -/
theorem claim8_serialization_counterexample :
    renderProtocolResponse
      (buildPageObject ⟨some "true", none, none, none, none⟩ [] "Home" "/" "v1" false false [])
      (fun _ => Except.error "TypeError: Converting circular structure to JSON")
    = Except.error "TypeError: Converting circular structure to JSON" := rfl

/-- Claim C8 amended: a serialization failure is not caught at the dispatch
boundary of the default adapter; `Inertia.render`'s protocol branch propagates
the error to the caller and no 500 response is produced. -/
theorem claim8_serialization_propagates (po : PageObject)
    (serialize : PageObject → Except String String) (e : String)
    (h : serialize po = Except.error e) :
    renderProtocolResponse po serialize = Except.error e := by
  rw [renderProtocolResponse, h]
  rfl

theorem claim8_serialization_propagates_witness :
    renderProtocolResponse
      (buildPageObject ⟨none, none, none, none, none⟩ [] "Home" "/" "v1" false false [])
      (fun _ => Except.error "circular") = Except.error "circular" :=
  claim8_serialization_propagates _ _ "circular" rfl

/-- Claim C3: when the partial-component header is present but names a
component other than the one being rendered, the request is treated as
non-partial: the `only` and `except` headers are ignored by the filter (the
result is the same as with those headers absent), and every entry carrying the
ignore-first-load marker (Optional/Deferred) is dropped. -/
theorem claim3_component_mismatch_not_partial (hdrs : ReqHeaders) (comp comp' : String)
    (props : Obj) (hnd : (props.map Prod.fst).Nodup)
    (hc : hdrs.componentHdr = some comp') (hne : comp' ≠ comp) :
    pickPropsToResolve hdrs comp props =
      pickPropsToResolve { hdrs with onlyHdr := none, exceptHdr := none } comp props
    ∧ ∀ k v, (k, v) ∈ props → ignoreFirstLoad v = true →
        lookupV (pickPropsToResolve hdrs comp props) k = none := by
  have hP : isPartialReq hdrs comp = false := by
    simp [isPartialReq, hc, hne]
  have hP' : isPartialReq { hdrs with onlyHdr := none, exceptHdr := none } comp = false := by
    simp [isPartialReq, hc, hne]
  constructor
  · rw [pickPropsToResolve, pickPropsToResolve]
    simp only [hP, hP', Bool.false_and, Bool.not_false, if_true, Bool.false_eq_true, if_false]
  · intro k v hm hig
    rw [lookupV_pick_nonPartial hnd hP, lookupV_of_mem hnd hm]
    simp [hig]

theorem claim3_component_mismatch_not_partial_witness :
    pickPropsToResolve ⟨some "true", some "Other", some "a", some "b", none⟩ "Home"
        [("a", PropValue.optionalP 1), ("b", PropValue.plain 2), ("c", PropValue.deferP 3 "g")]
      = pickPropsToResolve ⟨some "true", some "Other", none, none, none⟩ "Home"
        [("a", PropValue.optionalP 1), ("b", PropValue.plain 2), ("c", PropValue.deferP 3 "g")]
    ∧ lookupV (pickPropsToResolve ⟨some "true", some "Other", some "a", some "b", none⟩ "Home"
        [("a", PropValue.optionalP 1), ("b", PropValue.plain 2), ("c", PropValue.deferP 3 "g")])
        "c" = none := by
  obtain ⟨h1, h2⟩ := claim3_component_mismatch_not_partial
    ⟨some "true", some "Other", some "a", some "b", none⟩ "Home" "Other"
    [("a", PropValue.optionalP 1), ("b", PropValue.plain 2), ("c", PropValue.deferP 3 "g")]
    (by decide) rfl (by decide)
  exact ⟨h1, h2 "c" (PropValue.deferP 3 "g") (by decide) rfl⟩

/-- Claim C9: on a partial request for the rendered component with neither an
`only` nor an `except` header, every Optional and Deferred entry of the
candidate set is kept, resolved (its callback invoked, producing a plain
value) and included in the output props — the first-load exclusion applies
only to non-partial requests. -/
theorem claim9_optional_deferred_kept_on_bare_reload (hdrs : ReqHeaders)
    (comp : String) (props : Obj) (hnd : (props.map Prod.fst).Nodup)
    (hP : isPartialReq hdrs comp = true)
    (hOnly : truthy hdrs.onlyHdr = false) (hExcept : truthy hdrs.exceptHdr = false) :
    ∀ k (c : Nat),
      ((k, PropValue.optionalP c) ∈ props →
        lookupV (resolvePageProps (pickPropsToResolve hdrs comp props)) k
          = some (PropValue.plain c))
      ∧ ∀ g, (k, PropValue.deferP c g) ∈ props →
        lookupV (resolvePageProps (pickPropsToResolve hdrs comp props)) k
          = some (PropValue.plain c) := by
  intro k c
  constructor
  · intro hm
    rw [lookupV_resolvePageProps, lookupV_pick_noFilters hnd hP hOnly hExcept,
      lookupV_of_mem hnd hm]
    rfl
  · intro g hm
    rw [lookupV_resolvePageProps, lookupV_pick_noFilters hnd hP hOnly hExcept,
      lookupV_of_mem hnd hm]
    rfl

theorem claim9_optional_deferred_kept_on_bare_reload_witness :
    lookupV (resolvePageProps (pickPropsToResolve
        ⟨some "true", some "Home", none, none, none⟩ "Home"
        [("a", PropValue.optionalP 1), ("c", PropValue.deferP 3 "g")])) "a"
      = some (PropValue.plain 1)
    ∧ lookupV (resolvePageProps (pickPropsToResolve
        ⟨some "true", some "Home", none, none, none⟩ "Home"
        [("a", PropValue.optionalP 1), ("c", PropValue.deferP 3 "g")])) "c"
      = some (PropValue.plain 3) := by
  have h := claim9_optional_deferred_kept_on_bare_reload
    ⟨some "true", some "Home", none, none, none⟩ "Home"
    [("a", PropValue.optionalP 1), ("c", PropValue.deferP 3 "g")]
    (by decide) (by decide) rfl rfl
  exact ⟨(h "a" 1).1 (by decide), (h "c" 3).2 "g" (by decide)⟩

/-- Claim C4: the candidate set is shared data first, overlaid by the per-call
props, so on a key collision the per-call value is the one in the merged set;
consequently (here on a non-partial request, for an entry that survives the
first-load filter) the resolved output prop at that key is the resolved
per-call value. -/
theorem claim4_per_call_overrides_shared (hdrs : ReqHeaders) (sharedData pageProps : Obj)
    (comp url ver : String) (ch eh : Bool)
    (hndS : (sharedData.map Prod.fst).Nodup) (hndP : (pageProps.map Prod.fst).Nodup)
    (k : String) (u v : PropValue)
    (hshared : (k, u) ∈ sharedData) (hcall : (k, v) ∈ pageProps)
    (hP : isPartialReq hdrs comp = false) (hig : ignoreFirstLoad v = false) :
    lookupV (spreadTwo sharedData pageProps) k = some v
    ∧ lookupV (buildPageObject hdrs sharedData comp url ver ch eh pageProps).props k
        = some (resolveEntry v) := by
  have h1 : lookupV (spreadTwo sharedData pageProps) k = some v := by
    rw [lookupV_spreadTwo, lookupV_of_mem hndP hcall]
    rfl
  refine ⟨h1, ?_⟩
  simp only [buildPageObject]
  rw [lookupV_resolvePageProps, lookupV_pick_nonPartial (nodup_spreadTwo hndS hndP) hP, h1]
  simp [hig]

theorem claim4_per_call_overrides_shared_witness :
    lookupV (spreadTwo [("theme", PropValue.plain 7)] [("theme", PropValue.plain 9)]) "theme"
      = some (PropValue.plain 9)
    ∧ lookupV (buildPageObject ⟨some "true", none, none, none, none⟩
        [("theme", PropValue.plain 7)] "Home" "/" "v1" false false
        [("theme", PropValue.plain 9)]).props "theme" = some (PropValue.plain 9) := by
  have h := claim4_per_call_overrides_shared ⟨some "true", none, none, none, none⟩
    [("theme", PropValue.plain 7)] [("theme", PropValue.plain 9)] "Home" "/" "v1" false false
    (by decide) (by decide) "theme" (PropValue.plain 7) (PropValue.plain 9)
    (by decide) (by decide) rfl rfl
  exact h

/-- Claim C1: on a non-partial request, every Optional and Deferred entry of
the merged candidate set is absent from the resolved props of the page object,
and every Always, Eager and Merge entry of the merged set is present, at its
resolved value. -/
theorem claim1_first_load_filtering (hdrs : ReqHeaders) (sharedData pageProps : Obj)
    (comp url ver : String) (ch eh : Bool)
    (hndS : (sharedData.map Prod.fst).Nodup) (hndP : (pageProps.map Prod.fst).Nodup)
    (hP : isPartialReq hdrs comp = false) :
    ∀ k v, (k, v) ∈ spreadTwo sharedData pageProps →
      (ignoreFirstLoad v = true →
        lookupV (buildPageObject hdrs sharedData comp url ver ch eh pageProps).props k = none)
      ∧ (keptOnFirstLoad v = true →
        lookupV (buildPageObject hdrs sharedData comp url ver ch eh pageProps).props k
          = some (resolveEntry v)) := by
  intro k v hm
  have hnd := nodup_spreadTwo hndS hndP
  have hlk : lookupV (spreadTwo sharedData pageProps) k = some v := lookupV_of_mem hnd hm
  constructor
  · intro hig
    simp only [buildPageObject]
    rw [lookupV_resolvePageProps, lookupV_pick_nonPartial hnd hP, hlk]
    simp [hig]
  · intro hkept
    have hig : ignoreFirstLoad v = false := by
      cases v <;> simp_all [keptOnFirstLoad, ignoreFirstLoad]
    simp only [buildPageObject]
    rw [lookupV_resolvePageProps, lookupV_pick_nonPartial hnd hP, hlk]
    simp [hig]

theorem claim1_first_load_filtering_witness :
    lookupV (buildPageObject ⟨some "true", none, none, none, none⟩
        [("s", PropValue.plain 9)] "Home" "/" "v1" false false
        [("a", PropValue.optionalP 1), ("c", PropValue.deferP 3 "g"),
         ("d", PropValue.alwaysP 4), ("e", PropValue.mergeP 5 true)]).props "a" = none
    ∧ lookupV (buildPageObject ⟨some "true", none, none, none, none⟩
        [("s", PropValue.plain 9)] "Home" "/" "v1" false false
        [("a", PropValue.optionalP 1), ("c", PropValue.deferP 3 "g"),
         ("d", PropValue.alwaysP 4), ("e", PropValue.mergeP 5 true)]).props "c" = none
    ∧ lookupV (buildPageObject ⟨some "true", none, none, none, none⟩
        [("s", PropValue.plain 9)] "Home" "/" "v1" false false
        [("a", PropValue.optionalP 1), ("c", PropValue.deferP 3 "g"),
         ("d", PropValue.alwaysP 4), ("e", PropValue.mergeP 5 true)]).props "d"
        = some (PropValue.plain 4)
    ∧ lookupV (buildPageObject ⟨some "true", none, none, none, none⟩
        [("s", PropValue.plain 9)] "Home" "/" "v1" false false
        [("a", PropValue.optionalP 1), ("c", PropValue.deferP 3 "g"),
         ("d", PropValue.alwaysP 4), ("e", PropValue.mergeP 5 true)]).props "s"
        = some (PropValue.plain 9) := by
  have h := claim1_first_load_filtering ⟨some "true", none, none, none, none⟩
    [("s", PropValue.plain 9)]
    [("a", PropValue.optionalP 1), ("c", PropValue.deferP 3 "g"),
     ("d", PropValue.alwaysP 4), ("e", PropValue.mergeP 5 true)]
    "Home" "/" "v1" false false (by decide) (by decide) rfl
  refine ⟨(h "a" (PropValue.optionalP 1) (by decide)).1 rfl,
    (h "c" (PropValue.deferP 3 "g") (by decide)).1 rfl,
    (h "d" (PropValue.alwaysP 4) (by decide)).2 rfl,
    (h "s" (PropValue.plain 9) (by decide)).2 rfl⟩

/-- The code's fold-based deferred grouping agrees with the spec-worded
first-seen grouping. -/
theorem resolveDeferredProps_eq_spec (hdrs : ReqHeaders) (comp : String) (pageProps : Obj) :
    resolveDeferredProps hdrs comp pageProps =
      if isPartialReq hdrs comp then none else specDeferredProps pageProps := by
  rw [resolveDeferredProps, specDeferredProps]
  by_cases h : isPartialReq hdrs comp
  · simp [h]
  · simp only [h, Bool.false_eq_true, if_false]
    rw [groupReduce_eq]
    simp

/-- Claim C5: the deferredProps listing of the page object is present only on
a request that is not a partial request for the rendered component; there it
maps each group name of a Deferred entry of the original per-call props to the
keys declared with that group, groups in first-Deferred-occurrence order and
keys in declaration order, and it is omitted entirely when no Deferred entry
exists (all of which `specDeferredProps` states in the spec's words). -/
theorem claim5_deferred_listing (hdrs : ReqHeaders) (sharedData pageProps : Obj)
    (comp url ver : String) (ch eh : Bool) :
    (hdrs.componentHdr = some comp →
      (buildPageObject hdrs sharedData comp url ver ch eh pageProps).deferredProps = none)
    ∧ (hdrs.componentHdr ≠ some comp →
      (buildPageObject hdrs sharedData comp url ver ch eh pageProps).deferredProps
        = specDeferredProps pageProps) := by
  constructor
  · intro h
    simp only [buildPageObject]
    rw [resolveDeferredProps_eq_spec]
    simp [isPartialReq, h]
  · intro h
    simp only [buildPageObject]
    rw [resolveDeferredProps_eq_spec]
    simp [isPartialReq, h]

theorem claim5_deferred_listing_witness :
    (buildPageObject ⟨some "true", none, none, none, none⟩ [] "Home" "/" "v1" false false
        [("x", PropValue.deferP 1 "g1"), ("y", PropValue.deferP 2 "g1"),
         ("z", PropValue.deferP 3 "g2")]).deferredProps
      = some [("g1", ["x", "y"]), ("g2", ["z"])]
    ∧ (buildPageObject ⟨some "true", some "Home", none, none, none⟩ [] "Home" "/" "v1"
        false false [("x", PropValue.deferP 1 "g1")]).deferredProps = none := by
  constructor
  · rw [(claim5_deferred_listing ⟨some "true", none, none, none, none⟩ []
      [("x", PropValue.deferP 1 "g1"), ("y", PropValue.deferP 2 "g1"),
       ("z", PropValue.deferP 3 "g2")] "Home" "/" "v1" false false).2 (by decide)]
    decide
  · exact (claim5_deferred_listing ⟨some "true", some "Home", none, none, none⟩ []
      [("x", PropValue.deferP 1 "g1")] "Home" "/" "v1" false false).1 rfl

/-- Claim C2: on a partial request for the rendered component with a non-empty
`only` header (and no `except` header), the JSON-visible key set of the
resolved props is exactly the intersection of the `only` list with the
candidate key set, plus every Always-variant key of the candidates even when
not listed; `only` keys outside the candidate set are tolerated (they merely
yield `undefined`, which JSON encoding drops) and never raise an error —
witness the totality of the definitions. -/
theorem claim2_only_projection (hdrs : ReqHeaders) (comp s : String) (props : Obj)
    (hnd : (props.map Prod.fst).Nodup)
    (hP : isPartialReq hdrs comp = true) (hs : hdrs.onlyHdr = some s) (hsne : s ≠ "")
    (hExcept : truthy hdrs.exceptHdr = false)
    (hres : ∀ p ∈ props, resolveEntry p.2 ≠ PropValue.undefV) :
    ∀ k, k ∈ visibleKeys (resolvePageProps (pickPropsToResolve hdrs comp props))
      ↔ ((k ∈ splitHeader s ∧ k ∈ props.map Prod.fst)
          ∨ ∃ c, (k, PropValue.alwaysP c) ∈ props) := by
  intro k
  have hndp : ((resolvePageProps (pickPropsToResolve hdrs comp props)).map Prod.fst).Nodup := by
    rw [keys_resolvePageProps]
    exact nodup_pick hnd
  rw [mem_visibleKeys hndp]
  have hlk : lookupV (resolvePageProps (pickPropsToResolve hdrs comp props)) k =
      ((orE (lookupV (props.filter (fun p => isAlwaysProp p.2)) k)
        (if k ∈ splitHeader s then some (jsGet props k) else none)).map resolveEntry) := by
    rw [lookupV_resolvePageProps, lookupV_pick_only hnd hP hs hsne hExcept]
  rw [hlk]
  cases halw : lookupV (props.filter (fun p => isAlwaysProp p.2)) k with
  | some v =>
    have hmem0 : (k, v) ∈ props.filter (fun p => isAlwaysProp p.2) := lookupV_mem halw
    rcases List.mem_filter.mp hmem0 with ⟨hmemP, hva⟩
    obtain ⟨c, rfl⟩ : ∃ c, v = PropValue.alwaysP c := by
      cases v <;> simp_all [isAlwaysProp]
    constructor
    · intro _
      exact Or.inr ⟨c, hmemP⟩
    · intro _
      exact ⟨PropValue.plain c, rfl, by simp⟩
  | none =>
    simp only [orE_none]
    have hnoalw : ∀ c, (k, PropValue.alwaysP c) ∉ props := by
      intro c hc
      have hmem1 : (k, PropValue.alwaysP c) ∈ props.filter (fun p => isAlwaysProp p.2) :=
        List.mem_filter.mpr ⟨hc, by simp [isAlwaysProp]⟩
      have := lookupV_of_mem (nodup_filter_obj _ hnd) hmem1
      rw [halw] at this
      cases this
    by_cases hk : k ∈ splitHeader s
    · rw [if_pos hk]
      by_cases hmem : k ∈ props.map Prod.fst
      · have hne : lookupV props k ≠ none := by
          rw [ne_eq, lookupV_eq_none]
          simpa using hmem
        obtain ⟨v0, hv0⟩ := Option.ne_none_iff_exists'.mp hne
        have hjs : jsGet props k = v0 := by
          rw [jsGet, hv0]
          rfl
        have hres0 : resolveEntry v0 ≠ PropValue.undefV := hres (k, v0) (lookupV_mem hv0)
        constructor
        · intro _
          exact Or.inl ⟨hk, hmem⟩
        · intro _
          exact ⟨resolveEntry v0, by rw [hjs]; rfl, hres0⟩
      · have hjs : jsGet props k = PropValue.undefV := by
          rw [jsGet, lookupV_eq_none.mpr hmem]
          rfl
        rw [hjs]
        constructor
        · rintro ⟨w, hw, hwne⟩
          simp only [Option.map_some'] at hw
          have hwu : w = PropValue.undefV := by
            have : resolveEntry PropValue.undefV = w := by injection hw
            rw [← this]
            rfl
          exact absurd hwu hwne
        · rintro (⟨_, hmem'⟩ | ⟨c, hc⟩)
          · exact absurd hmem' hmem
          · exact absurd hc (hnoalw c)
    · rw [if_neg hk]
      constructor
      · rintro ⟨w, hw, _⟩
        simp at hw
      · rintro (⟨hk', _⟩ | ⟨c, hc⟩)
        · exact absurd hk' hk
        · exact absurd hc (hnoalw c)

theorem claim2_only_projection_witness :
    "a" ∈ visibleKeys (resolvePageProps (pickPropsToResolve
        ⟨some "true", some "Home", some "a,zz", none, none⟩ "Home"
        [("a", PropValue.optionalP 1), ("b", PropValue.plain 2), ("d", PropValue.alwaysP 4)]))
    ∧ "d" ∈ visibleKeys (resolvePageProps (pickPropsToResolve
        ⟨some "true", some "Home", some "a,zz", none, none⟩ "Home"
        [("a", PropValue.optionalP 1), ("b", PropValue.plain 2), ("d", PropValue.alwaysP 4)]))
    ∧ "zz" ∉ visibleKeys (resolvePageProps (pickPropsToResolve
        ⟨some "true", some "Home", some "a,zz", none, none⟩ "Home"
        [("a", PropValue.optionalP 1), ("b", PropValue.plain 2), ("d", PropValue.alwaysP 4)]))
    ∧ "b" ∉ visibleKeys (resolvePageProps (pickPropsToResolve
        ⟨some "true", some "Home", some "a,zz", none, none⟩ "Home"
        [("a", PropValue.optionalP 1), ("b", PropValue.plain 2), ("d", PropValue.alwaysP 4)])) := by
  have h := claim2_only_projection ⟨some "true", some "Home", some "a,zz", none, none⟩
    "Home" "a,zz"
    [("a", PropValue.optionalP 1), ("b", PropValue.plain 2), ("d", PropValue.alwaysP 4)]
    (by decide) (by decide) rfl (by decide) rfl (by decide)
  refine ⟨(h "a").mpr (Or.inl ⟨by decide, by decide⟩),
    (h "d").mpr (Or.inr ⟨4, by decide⟩), ?_, ?_⟩
  · intro hmem
    rcases (h "zz").mp hmem with ⟨_, h2⟩ | ⟨c, hc⟩
    · revert h2
      decide
    · simp at hc
  · intro hmem
    rcases (h "b").mp hmem with ⟨h1, _⟩ | ⟨c, hc⟩
    · revert h1
      decide
    · simp at hc

theorem isMergeableSet_iff {v : PropValue} :
    isMergeableSet v = true ↔ ∃ c, v = PropValue.mergeP c true := by
  cases v <;> simp [isMergeableSet]

/-- Claim C6: the mergeProps listing of the page object contains exactly the
keys of the Merge-variant entries whose merge flag is set, minus every key
named in the comma-separated reset header, and the field is omitted when that
list is empty (in particular a single Merge prop `m` with `reset=m` yields no
mergeProps field — see the witness). -/
theorem claim6_merge_listing (hdrs : ReqHeaders) (sharedData pageProps : Obj)
    (comp url ver : String) (ch eh : Bool) :
    (∀ k : String,
      (∃ l, (buildPageObject hdrs sharedData comp url ver ch eh pageProps).mergeProps
          = some l ∧ k ∈ l)
        ↔ ((∃ c, (k, PropValue.mergeP c true) ∈ pageProps)
            ∧ k ∉ splitHeader (hdrs.resetHdr.getD "")))
    ∧ ((buildPageObject hdrs sharedData comp url ver ch eh pageProps).mergeProps = none
        ↔ ∀ k : String, ¬ ((∃ c, (k, PropValue.mergeP c true) ∈ pageProps)
            ∧ k ∉ splitHeader (hdrs.resetHdr.getD ""))) := by
  have hfield : (buildPageObject hdrs sharedData comp url ver ch eh pageProps).mergeProps
      = resolveMergeProps hdrs pageProps := by
    simp only [buildPageObject]
  have hmm : ∀ k : String,
      k ∈ (((pageProps.filter (fun p => isMergeableSet p.2)).map Prod.fst).filter
            (fun k => decide (k ∉ splitHeader (hdrs.resetHdr.getD ""))))
        ↔ ((∃ c, (k, PropValue.mergeP c true) ∈ pageProps)
            ∧ k ∉ splitHeader (hdrs.resetHdr.getD "")) := by
    intro k
    rw [List.mem_filter]
    simp only [decide_eq_true_eq]
    constructor
    · rintro ⟨hk1, hk2⟩
      rcases List.mem_map.mp hk1 with ⟨p, hp, rfl⟩
      rcases List.mem_filter.mp hp with ⟨hpP, hpM⟩
      obtain ⟨c, hc⟩ := isMergeableSet_iff.mp hpM
      refine ⟨⟨c, ?_⟩, hk2⟩
      have : (p.1, p.2) = p := rfl
      rw [← hc, this]
      exact hpP
    · rintro ⟨⟨c, hc⟩, hk2⟩
      refine ⟨List.mem_map.mpr ⟨(k, PropValue.mergeP c true),
        List.mem_filter.mpr ⟨hc, by simp [isMergeableSet]⟩, rfl⟩, hk2⟩
  rw [hfield, resolveMergeProps]
  by_cases hL : (((pageProps.filter (fun p => isMergeableSet p.2)).map Prod.fst).filter
      (fun k => decide (k ∉ splitHeader (hdrs.resetHdr.getD "")))).isEmpty = true
  · rw [List.isEmpty_iff] at hL
    constructor
    · intro k
      rw [if_pos (by rw [hL]; rfl)]
      constructor
      · rintro ⟨l, hl, _⟩
        cases hl
      · intro hrhs
        have := (hmm k).mpr hrhs
        rw [hL] at this
        cases this
    · rw [if_pos (by rw [hL]; rfl)]
      constructor
      · intro _ k hrhs
        have := (hmm k).mpr hrhs
        rw [hL] at this
        cases this
      · intro _
        rfl
  · have hL' : (((pageProps.filter (fun p => isMergeableSet p.2)).map Prod.fst).filter
        (fun k => decide (k ∉ splitHeader (hdrs.resetHdr.getD "")))).isEmpty = false := by
      simpa using hL
    rw [if_neg (by rw [hL']; simp)]
    constructor
    · intro k
      constructor
      · rintro ⟨l, hl, hkl⟩
        have hl' : l = ((pageProps.filter (fun p => isMergeableSet p.2)).map Prod.fst).filter
            (fun k => decide (k ∉ splitHeader (hdrs.resetHdr.getD ""))) := by
          injection hl with h'
          exact h'.symm
        rw [hl'] at hkl
        exact (hmm k).mp hkl
      · intro hrhs
        exact ⟨_, rfl, (hmm k).mpr hrhs⟩
    · constructor
      · intro h'
        cases h'
      · intro hall
        rw [List.isEmpty_eq_false_iff_exists_mem] at hL'
        obtain ⟨x, hx⟩ := hL'
        exact absurd ((hmm x).mp hx) (hall x)

theorem claim6_merge_listing_witness :
    (buildPageObject ⟨some "true", none, none, none, some "m"⟩ [] "C" "/" "v" false false
        [("m", PropValue.mergeP 1 true)]).mergeProps = none := by
  refine (claim6_merge_listing ⟨some "true", none, none, none, some "m"⟩ []
      [("m", PropValue.mergeP 1 true)] "C" "/" "v" false false).2.mpr ?_
  intro k hk
  rcases hk with ⟨⟨c, hc⟩, hns⟩
  simp at hc
  rcases hc with ⟨hk1, hc1, _⟩
  rw [hk1] at hns
  exact hns (by decide)

end NodeInertia
